import Mathlib

/-!
# FHEPredictionMarket — verified shallow embedding

A shallow embedding of `contracts/FHEPredictionMarket.sol` (Zama FHEVM
prediction market).  Ciphertext handles are modelled by their decrypted
values: `euint64` as a natural number below `2 ^ 64` (`FHE.add` wraps),
`euint8` as a natural number below `256`, `ebool` as `Bool`.  The FHE
permission bookkeeping (`allowThis`, `makePubliclyDecryptable`, `allow`)
is identity on values; every primitive invocation of `placeEncryptedBet`
is additionally recorded, in order, in an operation trace so that the
obliviousness of the aggregation loop can be stated.

Solidity `revert` aborts a transaction with no state change; entry points
are therefore modelled in `Except`, and `step` keeps the pre-state on
error.  Solidity mappings are modelled by a total function (predictions)
and by an association list (bets, so that sums over all placed bets are
expressible); a mapping entry never written reads as the zero-initialised
struct.
-/

namespace FHEPredictionMarket

/-- Modulus of the `euint64` ciphertext domain. -/
def UINT64_MOD : Nat := 2 ^ 64

/-- `type(uint64).max`, the largest stake `placeEncryptedBet` accepts. -/
def UINT64_MAX : Nat := 2 ^ 64 - 1

/-- Modulus of the `euint8` ciphertext domain. -/
def UINT8_MOD : Nat := 2 ^ 8

/-- struct Prediction. `optionTotals` and `encryptedPool` hold the
decrypted values of the stored `euint64` handles. -/
structure Prediction where
  name : String
  options : List String
  optionTotals : List Nat
  encryptedPool : Nat
  creator : Nat
  createdAt : Nat
  exists_ : Bool
deriving Repr, DecidableEq

/-- The zero-initialised `Prediction` struct a Solidity mapping returns
for a key never written. -/
def Prediction.default : Prediction :=
  { name := "", options := [], optionTotals := [], encryptedPool := 0
    creator := 0, createdAt := 0, exists_ := false }

/-- struct BetInfo. -/
structure BetInfo where
  encryptedAmount : Nat
  encryptedSelection : Nat
  exists_ : Bool
deriving Repr, DecidableEq

/-- The zero-initialised `BetInfo` struct. -/
def BetInfo.default : BetInfo :=
  { encryptedAmount := 0, encryptedSelection := 0, exists_ := false }

/-- struct PredictionSummary. -/
structure PredictionSummary where
  id : Nat
  name : String
  options : List String
  creator : Nat
  createdAt : Nat
deriving Repr, DecidableEq

/-- The zero-initialised `PredictionSummary`, left in a slot of the array
`listPredictions` allocates when the `continue` branch skips it. -/
def PredictionSummary.default : PredictionSummary :=
  { id := 0, name := "", options := [], creator := 0, createdAt := 0 }

/-- The contract's typed errors. -/
inductive MarketError where
  | InvalidPrediction
  | InvalidOptionsCount
  | EmptyOption
  | EmptyName
  | BetAlreadyPlaced
  | InvalidBetAmount
deriving Repr, DecidableEq

/-- One primitive call into the FHE coprocessor, as publicly observable:
the operation's kind together with its plaintext arguments (encoded
constants, grantee addresses).  Ciphertext operands are opaque and do not
appear. -/
inductive FHEOp where
  | ingest
  | asEuint64 (c : Nat)
  | asEuint8 (c : Nat)
  | eq
  | select
  | add
  | allowThis
  | makePubliclyDecryptable
  | allow (who : Nat)
deriving Repr, DecidableEq

/-- The contract's storage.  `predictions` models the
`mapping(uint256 => Prediction)` as a total function; `bets` models the
nested bet mapping as an association list keyed by
`(predictionId, user)`; `balance` is the contract's ether balance,
accrued from `msg.value` of successful `placeEncryptedBet` calls. -/
structure MarketState where
  nextPredictionId : Nat
  predictions : Nat → Prediction
  bets : List ((Nat × Nat) × BetInfo)
  predictionIds : List Nat
  balance : Nat

/-- The state after the constructor runs: `_nextPredictionId = 1`, all
mappings zero-initialised. -/
def initialState : MarketState :=
  { nextPredictionId := 1
    predictions := fun _ => Prediction.default
    bets := []
    predictionIds := []
    balance := 0 }

/-- Read of `_bets[predictionId][user]`: the recorded struct, or the
zero-initialised one when the pair never bet. -/
def lookupBet (bets : List ((Nat × Nat) × BetInfo)) (predictionId user : Nat) :
    BetInfo :=
  match bets.find? (fun e => e.1.1 == predictionId && e.1.2 == user) with
  | some e => e.2
  | none => BetInfo.default

/-- `createPrediction(name, options)`, executed by `sender` at ledger
time `ts`.  Returns the new id and post-state, or reverts.  The encrypted
pool and every option total start as `FHE.asEuint64(0)`, which decrypts
to `0`. -/
def createPrediction (s : MarketState) (sender ts : Nat) (name : String)
    (options : List String) : Except MarketError (Nat × MarketState) :=
  if name.isEmpty then
    .error .EmptyName
  else if options.length < 2 ∨ options.length > 4 then
    .error .InvalidOptionsCount
  else if options.any String.isEmpty then
    .error .EmptyOption
  else
    let predictionId := s.nextPredictionId
    let prediction : Prediction :=
      { name := name
        options := options
        optionTotals := options.map fun _ => 0
        encryptedPool := 0
        creator := sender
        createdAt := ts
        exists_ := true }
    .ok (predictionId,
      { s with
        nextPredictionId := predictionId + 1
        predictions := fun p => if p = predictionId then prediction else s.predictions p
        predictionIds := s.predictionIds ++ [predictionId] })

/-- The body of the aggregation loop of `placeEncryptedBet`, starting at
option index `k`: each total becomes
`FHE.add(total, FHE.select(FHE.eq(selection, asEuint8(i)), amount, 0))`,
i.e. the stake is added exactly where the encrypted selection equals the
index, wrapping modulo `2 ^ 64`. -/
def updateTotalsFrom (selection amount : Nat) : Nat → List Nat → List Nat
  | _, [] => []
  | k, t :: rest =>
      (t + (if selection = k % UINT8_MOD then amount else 0)) % UINT64_MOD
        :: updateTotalsFrom selection amount (k + 1) rest

/-- The trace of FHE primitive calls made by one iteration block of the
aggregation loop, for indices `i, i+1, ..., i+n-1`. -/
def betLoopTraceFrom (sender : Nat) : Nat → Nat → List FHEOp
  | _, 0 => []
  | i, n + 1 =>
      [.asEuint8 (i % UINT8_MOD), .eq, .select, .add,
        .allowThis, .makePubliclyDecryptable, .allow sender]
        ++ betLoopTraceFrom sender (i + 1) n

/-- The trace of FHE primitive calls `placeEncryptedBet` makes before the
aggregation loop, in source order: selection ingestion and grants, stake
encoding and grants, pool update and grants, encrypted-zero preparation. -/
def betPrelude (sender value : Nat) : List FHEOp :=
  [.ingest, .allowThis, .allow sender,
    .asEuint64 (value % UINT64_MOD), .allowThis, .allow sender,
    .add, .allowThis, .makePubliclyDecryptable, .allow sender,
    .asEuint64 0, .allowThis]

/-- `placeEncryptedBet(predictionId, encryptedSelection, inputProof)`
executed by `sender` with `msg.value = value`; `selRaw` is the plaintext
under the caller-supplied external `euint8` handle (ingestion reduces it
modulo `256`).  Returns the post-state together with the ordered trace of
FHE primitive calls, or reverts. -/
def placeEncryptedBet (s : MarketState) (sender value predictionId selRaw : Nat) :
    Except MarketError (MarketState × List FHEOp) :=
  let prediction := s.predictions predictionId
  if !prediction.exists_ then
    .error .InvalidPrediction
  else if prediction.optionTotals.length = 0 then
    .error .InvalidOptionsCount
  else if value = 0 ∨ value > UINT64_MAX then
    .error .InvalidBetAmount
  else if (lookupBet s.bets predictionId sender).exists_ then
    .error .BetAlreadyPlaced
  else
    let selection := selRaw % UINT8_MOD
    let encryptedAmount := value % UINT64_MOD
    let newPool := (prediction.encryptedPool + encryptedAmount) % UINT64_MOD
    let newTotals := updateTotalsFrom selection encryptedAmount 0 prediction.optionTotals
    let betInfo : BetInfo :=
      { encryptedAmount := encryptedAmount
        encryptedSelection := selection
        exists_ := true }
    .ok (
      { s with
        predictions := fun p =>
          if p = predictionId then
            { prediction with encryptedPool := newPool, optionTotals := newTotals }
          else s.predictions p
        bets := ((predictionId, sender), betInfo) :: s.bets
        balance := s.balance + value },
      betPrelude sender value
        ++ betLoopTraceFrom sender 0 prediction.optionTotals.length)

/-- `listPredictions()`: one array slot per recorded id; a slot whose
prediction does not exist is skipped by `continue`, leaving the
zero-initialised summary. -/
def listPredictions (s : MarketState) : List PredictionSummary :=
  s.predictionIds.map fun predictionId =>
    let prediction := s.predictions predictionId
    if !prediction.exists_ then
      PredictionSummary.default
    else
      { id := predictionId
        name := prediction.name
        options := prediction.options
        creator := prediction.creator
        createdAt := prediction.createdAt }

/-- `getPredictionMetadata(predictionId)`. -/
def getPredictionMetadata (s : MarketState) (predictionId : Nat) :
    Except MarketError PredictionSummary :=
  let prediction := s.predictions predictionId
  if !prediction.exists_ then
    .error .InvalidPrediction
  else
    .ok
      { id := predictionId
        name := prediction.name
        options := prediction.options
        creator := prediction.creator
        createdAt := prediction.createdAt }

/-- `getEncryptedTotals(predictionId)`. -/
def getEncryptedTotals (s : MarketState) (predictionId : Nat) :
    Except MarketError (List Nat × Nat) :=
  let prediction := s.predictions predictionId
  if !prediction.exists_ then
    .error .InvalidPrediction
  else
    .ok (prediction.optionTotals, prediction.encryptedPool)

/-- `getUserBet(predictionId, user)`. -/
def getUserBet (s : MarketState) (predictionId user : Nat) :
    Except MarketError (Nat × Nat × Bool) :=
  let prediction := s.predictions predictionId
  if !prediction.exists_ then
    .error .InvalidPrediction
  else
    let bet := lookupBet s.bets predictionId user
    .ok (bet.encryptedAmount, bet.encryptedSelection, bet.exists_)

/-- `getPredictionCount()`. -/
def getPredictionCount (s : MarketState) : Nat :=
  s.predictionIds.length

/-- One external state-mutating transaction against the contract. -/
inductive Op where
  | create (sender ts : Nat) (name : String) (options : List String)
  | bet (sender value predictionId selRaw : Nat)

/-- Transaction semantics: a revert leaves the pre-state untouched. -/
def step (s : MarketState) : Op → MarketState
  | .create sender ts name options =>
      match createPrediction s sender ts name options with
      | .ok (_, s') => s'
      | .error _ => s
  | .bet sender value predictionId selRaw =>
      match placeEncryptedBet s sender value predictionId selRaw with
      | .ok (s', _) => s'
      | .error _ => s

/-- Run a sequence of transactions from a state. -/
def runFrom (s : MarketState) (ops : List Op) : MarketState :=
  ops.foldl step s

/-- Run a sequence of transactions from the freshly deployed contract. -/
def runOps (ops : List Op) : MarketState :=
  runFrom initialState ops

/-- A state is reachable when some transaction sequence produces it from
the freshly deployed contract. -/
def Reachable (s : MarketState) : Prop :=
  ∃ ops : List Op, s = runOps ops

/-- Number of successful `createPrediction` transactions in a sequence,
executed from `s`. -/
def countCreates : MarketState → List Op → Nat
  | _, [] => 0
  | s, op :: rest =>
      (match op with
        | .create sender ts name options =>
            match createPrediction s sender ts name options with
            | .ok _ => 1
            | .error _ => 0
        | .bet _ _ _ _ => 0) + countCreates (step s op) rest

/-- Total `msg.value` accepted by successful `placeEncryptedBet`
transactions in a sequence, executed from `s`. -/
def stakedValue : MarketState → List Op → Nat
  | _, [] => 0
  | s, op :: rest =>
      (match op with
        | .bet sender value predictionId selRaw =>
            match placeEncryptedBet s sender value predictionId selRaw with
            | .ok _ => value
            | .error _ => 0
        | .create _ _ _ _ => 0) + stakedValue (step s op) rest

/-- Sum of the stakes of all recorded bets on a prediction. -/
def stakesOn (bets : List ((Nat × Nat) × BetInfo)) (predictionId : Nat) : Nat :=
  ((bets.filter fun e => e.1.1 == predictionId).map fun e => e.2.encryptedAmount).sum

/-- Sum of the stakes of all recorded bets on a prediction whose stored
encrypted selection decrypts to `sel`. -/
def stakesOnSel (bets : List ((Nat × Nat) × BetInfo)) (predictionId sel : Nat) : Nat :=
  ((bets.filter fun e => e.1.1 == predictionId && e.2.encryptedSelection == sel).map
      fun e => e.2.encryptedAmount).sum

/-- The inductive state invariant of the contract, established by the
constructor and preserved by every transaction. -/
structure Invariant (s : MarketState) : Prop where
  fresh : ∀ predictionId, s.nextPredictionId ≤ predictionId →
    (s.predictions predictionId).exists_ = false
  betsWF : ∀ e ∈ s.bets,
    (s.predictions e.1.1).exists_ = true ∧ e.2.exists_ = true ∧
      0 < e.2.encryptedAmount ∧ e.2.encryptedAmount ≤ UINT64_MAX ∧
      e.2.encryptedSelection < UINT8_MOD
  optionsLen : ∀ predictionId, (s.predictions predictionId).exists_ = true →
    (s.predictions predictionId).optionTotals.length =
        (s.predictions predictionId).options.length ∧
      2 ≤ (s.predictions predictionId).options.length ∧
      (s.predictions predictionId).options.length ≤ 4
  poolSum : ∀ predictionId, (s.predictions predictionId).exists_ = true →
    (s.predictions predictionId).encryptedPool =
      stakesOn s.bets predictionId % UINT64_MOD
  totalsSum : ∀ predictionId, (s.predictions predictionId).exists_ = true →
    ∀ i, i < (s.predictions predictionId).optionTotals.length →
      (s.predictions predictionId).optionTotals.getD i 0 =
        stakesOnSel s.bets predictionId i % UINT64_MOD
  ids : s.predictionIds = List.range' 1 s.predictionIds.length
  nextId : s.nextPredictionId = s.predictionIds.length + 1
  idsExist : ∀ predictionId ∈ s.predictionIds,
    (s.predictions predictionId).exists_ = true

theorem stakesOn_cons (e : (Nat × Nat) × BetInfo) (bets : List ((Nat × Nat) × BetInfo))
    (predictionId : Nat) :
    stakesOn (e :: bets) predictionId =
      (if e.1.1 = predictionId then e.2.encryptedAmount else 0) + stakesOn bets predictionId := by
  by_cases h : e.1.1 = predictionId <;> simp [stakesOn, List.filter_cons, h]

theorem stakesOnSel_cons (e : (Nat × Nat) × BetInfo) (bets : List ((Nat × Nat) × BetInfo))
    (predictionId sel : Nat) :
    stakesOnSel (e :: bets) predictionId sel =
      (if e.1.1 = predictionId ∧ e.2.encryptedSelection = sel then e.2.encryptedAmount else 0)
        + stakesOnSel bets predictionId sel := by
  by_cases h1 : e.1.1 = predictionId <;> by_cases h2 : e.2.encryptedSelection = sel <;>
    simp [stakesOnSel, List.filter_cons, h1, h2]

theorem stakesOn_eq_zero (bets : List ((Nat × Nat) × BetInfo)) (predictionId : Nat)
    (h : ∀ e ∈ bets, e.1.1 ≠ predictionId) : stakesOn bets predictionId = 0 := by
  induction bets with
  | nil => rfl
  | cons e l ih =>
      rw [stakesOn_cons, if_neg (h e (List.mem_cons_self e l)),
        ih fun x hx => h x (List.mem_cons_of_mem e hx)]

theorem stakesOnSel_eq_zero (bets : List ((Nat × Nat) × BetInfo)) (predictionId sel : Nat)
    (h : ∀ e ∈ bets, e.1.1 ≠ predictionId) : stakesOnSel bets predictionId sel = 0 := by
  induction bets with
  | nil => rfl
  | cons e l ih =>
      rw [stakesOnSel_cons, ih fun x hx => h x (List.mem_cons_of_mem e hx)]
      simp [h e (List.mem_cons_self e l)]

theorem updateTotalsFrom_length (selection amount : Nat) :
    ∀ (k : Nat) (ts : List Nat), (updateTotalsFrom selection amount k ts).length = ts.length
  | _, [] => rfl
  | k, _ :: rest => by
      simp [updateTotalsFrom, updateTotalsFrom_length selection amount (k + 1) rest]

theorem updateTotalsFrom_getD (selection amount : Nat) (ts : List Nat) :
    ∀ (k i : Nat), i < ts.length →
      (updateTotalsFrom selection amount k ts).getD i 0 =
        (ts.getD i 0 + if selection = (k + i) % UINT8_MOD then amount else 0) % UINT64_MOD := by
  induction ts with
  | nil => intro k i h; simp at h
  | cons t rest ih =>
      intro k i h
      cases i with
      | zero => simp [updateTotalsFrom]
      | succ j =>
          have hk : k + 1 + j = k + (j + 1) := by omega
          simpa [updateTotalsFrom, hk] using ih (k + 1) j (by simpa using h)

theorem UINT64_MOD_pos : 0 < UINT64_MOD := by norm_num [UINT64_MOD]

theorem getD_map_zero (l : List String) (i : Nat) :
    (l.map fun _ => (0 : Nat)).getD i 0 = 0 := by
  rw [List.getD_eq_getElem?_getD, List.getElem?_map]
  cases l[i]? <;> rfl

theorem UINT64_MAX_succ : UINT64_MAX + 1 = UINT64_MOD := by
  norm_num [UINT64_MAX, UINT64_MOD]

theorem invariant_initialState : Invariant initialState := by
  constructor <;> simp [initialState, Prediction.default]

theorem invariant_createPrediction {s : MarketState} {sender ts : Nat} {name : String}
    {options : List String} {predictionId : Nat} {s' : MarketState}
    (hs : Invariant s)
    (h : createPrediction s sender ts name options = .ok (predictionId, s')) :
    Invariant s' ∧ predictionId = s.nextPredictionId := by
  unfold createPrediction at h
  split at h
  · exact absurd h (by simp)
  split at h
  · exact absurd h (by simp)
  split at h
  · exact absurd h (by simp)
  rename_i hname hcount hopts
  simp only [Except.ok.injEq, Prod.mk.injEq] at h
  obtain ⟨hpid, hstate⟩ := h
  subst hpid
  subst hstate
  have hnobet : ∀ e ∈ s.bets, e.1.1 ≠ s.nextPredictionId := by
    intro e he heq
    have hex := (hs.betsWF e he).1
    rw [heq, hs.fresh s.nextPredictionId (Nat.le_refl _)] at hex
    exact Bool.false_ne_true hex
  have hlen : 2 ≤ options.length ∧ options.length ≤ 4 := by
    rcases Nat.lt_or_ge options.length 2 with hlt | hge
    · exact absurd (Or.inl hlt) hcount
    rcases Nat.lt_or_ge 4 options.length with hgt | hle
    · exact absurd (Or.inr hgt) hcount
    exact ⟨hge, hle⟩
  refine ⟨⟨?_, ?_, ?_, ?_, ?_, ?_, ?_, ?_⟩, rfl⟩
  · intro q hq
    dsimp only at hq ⊢
    have hne : q ≠ s.nextPredictionId := by omega
    rw [if_neg hne]
    exact hs.fresh q (by omega)
  · intro e he
    dsimp only at he ⊢
    have hne : e.1.1 ≠ s.nextPredictionId := hnobet e he
    rw [if_neg hne]
    exact hs.betsWF e he
  · intro q hq
    dsimp only at hq ⊢
    by_cases hne : q = s.nextPredictionId
    · subst hne
      simpa using hlen
    · rw [if_neg hne] at hq ⊢
      exact hs.optionsLen q hq
  · intro q hq
    dsimp only at hq ⊢
    by_cases hne : q = s.nextPredictionId
    · subst hne
      simp [stakesOn_eq_zero s.bets _ hnobet]
    · rw [if_neg hne] at hq ⊢
      exact hs.poolSum q hq
  · intro q hq i hi
    dsimp only at hq hi ⊢
    by_cases hne : q = s.nextPredictionId
    · subst hne
      rw [stakesOnSel_eq_zero s.bets _ i hnobet]
      simp [getD_map_zero]
    · rw [if_neg hne] at hq hi ⊢
      exact hs.totalsSum q hq i hi
  · dsimp only
    have hconcat : s.predictionIds ++ [s.nextPredictionId]
        = List.range' 1 (s.predictionIds.length + 1) := by
      rw [List.range'_concat, hs.nextId]
      congr 1
      · exact hs.ids
      · congr 1
        omega
    simpa using hconcat
  · dsimp only
    simp [hs.nextId]
  · intro q hq
    dsimp only at hq ⊢
    simp only [List.mem_append, List.mem_singleton] at hq
    rcases hq with hq | hq
    · have hne : q ≠ s.nextPredictionId := by
        intro heq
        have hx := hs.idsExist q hq
        rw [heq, hs.fresh s.nextPredictionId (Nat.le_refl _)] at hx
        exact Bool.false_ne_true hx
      rw [if_neg hne]
      exact hs.idsExist q hq
    · subst hq
      simp

theorem invariant_placeEncryptedBet {s : MarketState} {sender value predictionId selRaw : Nat}
    {s' : MarketState} {tr : List FHEOp}
    (hs : Invariant s)
    (h : placeEncryptedBet s sender value predictionId selRaw = .ok (s', tr)) :
    Invariant s' := by
  unfold placeEncryptedBet at h
  dsimp only at h
  split at h
  · exact absurd h (by simp)
  split at h
  · exact absurd h (by simp)
  split at h
  · exact absurd h (by simp)
  split at h
  · exact absurd h (by simp)
  rename_i hex hlen0 hval hbet
  simp only [Bool.not_eq_true', Bool.not_eq_false] at hex
  push_neg at hval
  obtain ⟨hv0, hvmax⟩ := hval
  have hvlt : value < UINT64_MOD := by
    have := UINT64_MAX_succ
    omega
  have hamt : value % UINT64_MOD = value := Nat.mod_eq_of_lt hvlt
  have hsel : selRaw % UINT8_MOD < UINT8_MOD :=
    Nat.mod_lt _ (by norm_num [UINT8_MOD])
  simp only [Except.ok.injEq, Prod.mk.injEq] at h
  obtain ⟨hstate, htr⟩ := h
  subst hstate
  have hoptLen := hs.optionsLen predictionId hex
  refine ⟨?_, ?_, ?_, ?_, ?_, ?_, ?_, ?_⟩
  · intro q hq
    dsimp only at hq ⊢
    by_cases hqp : q = predictionId
    · subst hqp
      have hfalse := hs.fresh q hq
      rw [hex] at hfalse
      exact absurd hfalse (by simp)
    · rw [if_neg hqp]
      exact hs.fresh q hq
  · intro e he
    dsimp only at he ⊢
    rcases List.mem_cons.mp he with he | he
    · subst he
      dsimp only
      rw [if_pos rfl]
      refine ⟨hex, rfl, ?_, ?_, hsel⟩
      · rw [hamt]; omega
      · rw [hamt]; exact hvmax
    · have hwf := hs.betsWF e he
      by_cases hqp : e.1.1 = predictionId
      · rw [hqp, if_pos rfl]
        exact ⟨hex, hwf.2⟩
      · rw [if_neg hqp]
        exact hwf
  · intro q hq
    dsimp only at hq ⊢
    by_cases hqp : q = predictionId
    · subst hqp
      rw [if_pos rfl] at hq ⊢
      dsimp only
      rw [updateTotalsFrom_length]
      exact hoptLen
    · rw [if_neg hqp] at hq ⊢
      exact hs.optionsLen q hq
  · intro q hq
    dsimp only at hq ⊢
    by_cases hqp : q = predictionId
    · subst hqp
      rw [if_pos rfl] at hq ⊢
      dsimp only
      rw [stakesOn_cons]
      dsimp only
      rw [if_pos rfl, hs.poolSum q hex, hamt, Nat.mod_add_mod, Nat.add_comm]
    · rw [if_neg hqp] at hq ⊢
      rw [stakesOn_cons]
      dsimp only
      rw [if_neg (Ne.symm hqp), Nat.zero_add]
      exact hs.poolSum q hq
  · intro q hq i hi
    dsimp only at hq hi ⊢
    by_cases hqp : q = predictionId
    · subst hqp
      rw [if_pos rfl] at hq hi ⊢
      dsimp only at hi ⊢
      rw [updateTotalsFrom_length] at hi
      have hi4 : i < UINT8_MOD := by
        have h4 := hoptLen.2.2
        have hlen := hoptLen.1
        norm_num [UINT8_MOD]
        omega
      have hzi : (0 + i) % UINT8_MOD = i := by
        rw [Nat.zero_add]
        exact Nat.mod_eq_of_lt hi4
      rw [updateTotalsFrom_getD _ _ _ 0 i hi, hzi, hs.totalsSum q hex i hi,
        stakesOnSel_cons]
      dsimp only
      simp only [eq_self_iff_true, true_and]
      conv_lhs => rw [Nat.mod_add_mod]
      rw [Nat.add_comm]
    · rw [if_neg hqp] at hq hi ⊢
      rw [stakesOnSel_cons]
      dsimp only
      rw [if_neg ?_, Nat.zero_add]
      · exact hs.totalsSum q hq i hi
      · intro hcontra
        exact hqp hcontra.1.symm
  · exact hs.ids
  · exact hs.nextId
  · intro q hq
    dsimp only at hq ⊢
    by_cases hqp : q = predictionId
    · subst hqp
      rw [if_pos rfl]
      exact hex
    · rw [if_neg hqp]
      exact hs.idsExist q hq

theorem invariant_step (s : MarketState) (op : Op) (hs : Invariant s) :
    Invariant (step s op) := by
  cases op with
  | create sender ts name options =>
      simp only [step]
      cases hc : createPrediction s sender ts name options with
      | ok result =>
          obtain ⟨pid, s'⟩ := result
          exact (invariant_createPrediction hs hc).1
      | error e => exact hs
  | bet sender value predictionId selRaw =>
      simp only [step]
      cases hc : placeEncryptedBet s sender value predictionId selRaw with
      | ok result =>
          obtain ⟨s', tr⟩ := result
          exact invariant_placeEncryptedBet hs hc
      | error e => exact hs

theorem invariant_runFrom (s : MarketState) (ops : List Op) (hs : Invariant s) :
    Invariant (runFrom s ops) := by
  induction ops generalizing s with
  | nil => exact hs
  | cons op rest ih => exact ih (step s op) (invariant_step s op hs)

theorem invariant_reachable {s : MarketState} (h : Reachable s) : Invariant s := by
  obtain ⟨ops, rfl⟩ := h
  exact invariant_runFrom initialState ops invariant_initialState

/-- Inversion of a successful `createPrediction`: the validations passed,
the returned id is the next sequential one, and the post-state is the
pre-state with the new prediction installed. -/
theorem createPrediction_ok_inv {s : MarketState} {sender ts : Nat} {name : String}
    {options : List String} {predictionId : Nat} {s' : MarketState}
    (h : createPrediction s sender ts name options = .ok (predictionId, s')) :
    name.isEmpty = false ∧ 2 ≤ options.length ∧ options.length ≤ 4 ∧
      options.any String.isEmpty = false ∧
      predictionId = s.nextPredictionId ∧
      s' = { s with
        nextPredictionId := s.nextPredictionId + 1
        predictions := fun p =>
          if p = s.nextPredictionId then
            { name := name
              options := options
              optionTotals := options.map fun _ => 0
              encryptedPool := 0
              creator := sender
              createdAt := ts
              exists_ := true }
          else s.predictions p
        predictionIds := s.predictionIds ++ [s.nextPredictionId] } := by
  unfold createPrediction at h
  split at h
  · exact absurd h (by simp)
  split at h
  · exact absurd h (by simp)
  split at h
  · exact absurd h (by simp)
  rename_i hname hcount hopts
  simp only [Except.ok.injEq, Prod.mk.injEq] at h
  obtain ⟨hpid, hstate⟩ := h
  subst hpid
  subst hstate
  refine ⟨by simpa using hname, ?_, ?_, by simpa using hopts, rfl, rfl⟩
  · rcases Nat.lt_or_ge options.length 2 with hlt | hge
    · exact absurd (Or.inl hlt) hcount
    · exact hge
  · rcases Nat.lt_or_ge 4 options.length with hgt | hle
    · exact absurd (Or.inr hgt) hcount
    · exact hle

/-- Inversion of a successful `placeEncryptedBet`: the validations passed,
the trace is the fixed prelude followed by one block per option index, and
the post-state updates the pool, every option total, the bet record and
the balance. -/
theorem placeEncryptedBet_ok_inv {s : MarketState} {sender value predictionId selRaw : Nat}
    {s' : MarketState} {tr : List FHEOp}
    (h : placeEncryptedBet s sender value predictionId selRaw = .ok (s', tr)) :
    (s.predictions predictionId).exists_ = true ∧
      (s.predictions predictionId).optionTotals.length ≠ 0 ∧
      value ≠ 0 ∧ value ≤ UINT64_MAX ∧
      (lookupBet s.bets predictionId sender).exists_ = false ∧
      tr = betPrelude sender value
        ++ betLoopTraceFrom sender 0 (s.predictions predictionId).optionTotals.length ∧
      s' = { s with
        predictions := fun p =>
          if p = predictionId then
            { s.predictions predictionId with
                encryptedPool :=
                  ((s.predictions predictionId).encryptedPool + value % UINT64_MOD)
                    % UINT64_MOD
                optionTotals :=
                  updateTotalsFrom (selRaw % UINT8_MOD) (value % UINT64_MOD) 0
                    (s.predictions predictionId).optionTotals }
          else s.predictions p
        bets := ((predictionId, sender),
          { encryptedAmount := value % UINT64_MOD
            encryptedSelection := selRaw % UINT8_MOD
            exists_ := true }) :: s.bets
        balance := s.balance + value } := by
  unfold placeEncryptedBet at h
  dsimp only at h
  split at h
  · exact absurd h (by simp)
  split at h
  · exact absurd h (by simp)
  split at h
  · exact absurd h (by simp)
  split at h
  · exact absurd h (by simp)
  rename_i hex hlen0 hval hbet
  simp only [Bool.not_eq_true', Bool.not_eq_false] at hex
  push_neg at hval
  simp only [Except.ok.injEq, Prod.mk.injEq] at h
  obtain ⟨hstate, htr⟩ := h
  subst hstate
  exact ⟨hex, hlen0, hval.1, hval.2, by simpa using hbet, htr.symm, rfl⟩

theorem lookupBet_default_or_mem (bets : List ((Nat × Nat) × BetInfo))
    (predictionId user : Nat) :
    lookupBet bets predictionId user = BetInfo.default ∨
      ∃ e ∈ bets, e.1.1 = predictionId ∧ e.1.2 = user ∧
        lookupBet bets predictionId user = e.2 := by
  unfold lookupBet
  cases hf : bets.find? (fun e => e.1.1 == predictionId && e.1.2 == user) with
  | none => exact Or.inl rfl
  | some e =>
      have hp := List.find?_some hf
      simp only [Bool.and_eq_true, beq_iff_eq] at hp
      exact Or.inr ⟨e, List.mem_of_find?_eq_some hf, hp.1, hp.2, rfl⟩

/-- Claim C4: `createPrediction` fails with `EmptyName` exactly when the
name is empty, with `InvalidOptionsCount` exactly when the name check
passed but the number of options is below 2 or above 4, and with
`EmptyOption` exactly when the earlier checks passed but some option
string is empty; in every failing case the state, and in particular
`getPredictionCount()`, is unchanged. -/
theorem createPrediction_validation (s : MarketState) (sender ts : Nat)
    (name : String) (options : List String) :
    (createPrediction s sender ts name options = .error .EmptyName ↔
      name.isEmpty = true) ∧
    (createPrediction s sender ts name options = .error .InvalidOptionsCount ↔
      name.isEmpty = false ∧ (options.length < 2 ∨ options.length > 4)) ∧
    (createPrediction s sender ts name options = .error .EmptyOption ↔
      name.isEmpty = false ∧ ¬(options.length < 2 ∨ options.length > 4) ∧
        options.any String.isEmpty = true) ∧
    (∀ err : MarketError, createPrediction s sender ts name options = .error err →
      step s (.create sender ts name options) = s ∧
      getPredictionCount (step s (.create sender ts name options)) =
        getPredictionCount s) := by
  by_cases h1 : name.isEmpty <;>
    by_cases h2 : options.length < 2 ∨ options.length > 4 <;>
      by_cases h3 : options.any String.isEmpty <;>
        simp [createPrediction, step, h1, h2, h3]

theorem createPrediction_validation_witness :
    createPrediction initialState 1 0 "" ["A", "B"] = .error .EmptyName ∧
      step initialState (.create 1 0 "" ["A", "B"]) = initialState ∧
      getPredictionCount (step initialState (.create 1 0 "" ["A", "B"])) =
        getPredictionCount initialState := by
  have h := createPrediction_validation initialState 1 0 "" ["A", "B"]
  have he : createPrediction initialState 1 0 "" ["A", "B"] = .error .EmptyName :=
    h.1.mpr rfl
  exact ⟨he, (h.2.2.2 .EmptyName he).1, (h.2.2.2 .EmptyName he).2⟩

/-- Claim C5: on an existing prediction of a reachable state,
`placeEncryptedBet` fails with `InvalidBetAmount` exactly when the
attached stake is zero or exceeds `type(uint64).max`, and such a call
leaves the state unchanged. -/
theorem invalidBetAmount_iff {s : MarketState} (hr : Reachable s)
    (sender value predictionId selRaw : Nat)
    (hex : (s.predictions predictionId).exists_ = true) :
    (placeEncryptedBet s sender value predictionId selRaw =
        .error .InvalidBetAmount ↔ value = 0 ∨ value > UINT64_MAX) ∧
    (value = 0 ∨ value > UINT64_MAX →
      step s (.bet sender value predictionId selRaw) = s) := by
  have hinv := invariant_reachable hr
  have hlen := (hinv.optionsLen predictionId hex).1
  have h2 := (hinv.optionsLen predictionId hex).2.1
  have hlen0 : ¬(s.predictions predictionId).optionTotals.length = 0 := by omega
  have herr : value = 0 ∨ value > UINT64_MAX →
      placeEncryptedBet s sender value predictionId selRaw =
        .error .InvalidBetAmount := by
    intro hv
    unfold placeEncryptedBet
    dsimp only
    rw [if_neg (by simp [hex]), if_neg hlen0, if_pos hv]
  refine ⟨⟨?_, herr⟩, ?_⟩
  · intro h
    clear herr hlen0 hlen h2 hinv
    unfold placeEncryptedBet at h
    dsimp only at h
    split at h
    · exact absurd h (by simp)
    split at h
    · exact absurd h (by simp)
    split at h
    · rename_i hv
      exact hv
    split at h
    · exact absurd h (by simp)
    · exact absurd h (by simp)
  · intro hv
    simp [step, herr hv]

theorem invalidBetAmount_iff_witness :
    Reachable (runOps [.create 1 0 "AB" ["A", "B"]]) ∧
      ((runOps [.create 1 0 "AB" ["A", "B"]]).predictions 1).exists_ = true ∧
      placeEncryptedBet (runOps [.create 1 0 "AB" ["A", "B"]]) 2 0 1 0 =
        .error .InvalidBetAmount ∧
      step (runOps [.create 1 0 "AB" ["A", "B"]]) (.bet 2 0 1 0) =
        runOps [.create 1 0 "AB" ["A", "B"]] := by
  have h := invalidBetAmount_iff (s := runOps [.create 1 0 "AB" ["A", "B"]])
    ⟨[.create 1 0 "AB" ["A", "B"]], rfl⟩ 2 0 1 0 (by decide)
  exact ⟨⟨[.create 1 0 "AB" ["A", "B"]], rfl⟩, by decide,
    h.1.mpr (Or.inl rfl), h.2 (Or.inl rfl)⟩

/-- Claim C6: `getUserBet` fails with `InvalidPrediction` when the
prediction does not exist; on an existing prediction it returns the
zero-valued triple with `exists = false` when the identity never bet, and
the stored encrypted amount and selection with `exists = true` when it
did — never an error. -/
theorem getUserBet_spec {s : MarketState} (hr : Reachable s) (predictionId user : Nat) :
    ((s.predictions predictionId).exists_ = false →
      getUserBet s predictionId user = .error .InvalidPrediction) ∧
    ((s.predictions predictionId).exists_ = true →
      (lookupBet s.bets predictionId user).exists_ = false →
      getUserBet s predictionId user = .ok (0, 0, false)) ∧
    ((s.predictions predictionId).exists_ = true →
      (lookupBet s.bets predictionId user).exists_ = true →
      getUserBet s predictionId user =
        .ok ((lookupBet s.bets predictionId user).encryptedAmount,
          (lookupBet s.bets predictionId user).encryptedSelection, true)) := by
  have hinv := invariant_reachable hr
  refine ⟨?_, ?_, ?_⟩
  · intro hex
    unfold getUserBet
    rw [if_pos (by simp [hex])]
  · intro hex hno
    have hdef : lookupBet s.bets predictionId user = BetInfo.default := by
      rcases lookupBet_default_or_mem s.bets predictionId user with hd | ⟨e, he, -, -, heq⟩
      · exact hd
      · have := (hinv.betsWF e he).2.1
        rw [← heq, hno] at this
        exact absurd this (by simp)
    unfold getUserBet
    rw [if_neg (by simp [hex]), hdef]
    rfl
  · intro hex hyes
    unfold getUserBet
    rw [if_neg (by simp [hex])]
    dsimp only
    rw [hyes]

theorem getUserBet_spec_witness :
    Reachable (runOps [.create 1 0 "AB" ["A", "B"], .bet 2 1 1 0]) ∧
      ((runOps [.create 1 0 "AB" ["A", "B"], .bet 2 1 1 0]).predictions 1).exists_
        = true ∧
      getUserBet (runOps [.create 1 0 "AB" ["A", "B"], .bet 2 1 1 0]) 1 5 =
        .ok (0, 0, false) ∧
      getUserBet (runOps [.create 1 0 "AB" ["A", "B"], .bet 2 1 1 0]) 1 2 =
        .ok (1, 0, true) ∧
      getUserBet (runOps [.create 1 0 "AB" ["A", "B"], .bet 2 1 1 0]) 7 5 =
        .error .InvalidPrediction := by
  have h5 := getUserBet_spec
    (s := runOps [.create 1 0 "AB" ["A", "B"], .bet 2 1 1 0])
    ⟨[.create 1 0 "AB" ["A", "B"], .bet 2 1 1 0], rfl⟩ 1 5
  have h2 := getUserBet_spec
    (s := runOps [.create 1 0 "AB" ["A", "B"], .bet 2 1 1 0])
    ⟨[.create 1 0 "AB" ["A", "B"], .bet 2 1 1 0], rfl⟩ 1 2
  have h7 := getUserBet_spec
    (s := runOps [.create 1 0 "AB" ["A", "B"], .bet 2 1 1 0])
    ⟨[.create 1 0 "AB" ["A", "B"], .bet 2 1 1 0], rfl⟩ 7 5
  refine ⟨⟨[.create 1 0 "AB" ["A", "B"], .bet 2 1 1 0], rfl⟩, by decide, ?_, ?_, ?_⟩
  · exact h5.2.1 (by decide) (by decide)
  · exact h2.2.2 (by decide) (by decide)
  · exact h7.1 (by decide)

/-- Claim C9: for every existing prediction of a reachable state the
option-totals sequence has exactly one entry per option; the equality is
established by `createPrediction` and preserved by `placeEncryptedBet`,
whose loop replaces entries in place without changing the length. -/
theorem optionTotals_length_spec :
    (∀ s : MarketState, Reachable s → ∀ predictionId : Nat,
      (s.predictions predictionId).exists_ = true →
      (s.predictions predictionId).optionTotals.length =
        (s.predictions predictionId).options.length) ∧
    (∀ (s : MarketState) (sender ts : Nat) (name : String) (options : List String)
      (predictionId : Nat) (s' : MarketState),
      createPrediction s sender ts name options = .ok (predictionId, s') →
      (s'.predictions predictionId).optionTotals.length =
        (s'.predictions predictionId).options.length) ∧
    (∀ (s : MarketState) (sender value predictionId selRaw : Nat)
      (s' : MarketState) (tr : List FHEOp),
      placeEncryptedBet s sender value predictionId selRaw = .ok (s', tr) →
      (s'.predictions predictionId).optionTotals.length =
        (s.predictions predictionId).optionTotals.length ∧
      (s'.predictions predictionId).options = (s.predictions predictionId).options) := by
  refine ⟨?_, ?_, ?_⟩
  · intro s hr predictionId hex
    exact ((invariant_reachable hr).optionsLen predictionId hex).1
  · intro s sender ts name options predictionId s' h
    obtain ⟨-, -, -, -, hpid, hstate⟩ := createPrediction_ok_inv h
    subst hpid
    subst hstate
    dsimp only
    rw [if_pos rfl]
    simp
  · intro s sender value predictionId selRaw s' tr h
    obtain ⟨-, -, -, -, -, -, hstate⟩ := placeEncryptedBet_ok_inv h
    subst hstate
    dsimp only
    rw [if_pos rfl]
    exact ⟨updateTotalsFrom_length _ _ _ _, rfl⟩

theorem optionTotals_length_spec_witness :
    Reachable (runOps [.create 1 0 "AB" ["A", "B"]]) ∧
      ((runOps [.create 1 0 "AB" ["A", "B"]]).predictions 1).exists_ = true ∧
      ((runOps [.create 1 0 "AB" ["A", "B"]]).predictions 1).optionTotals.length =
        ((runOps [.create 1 0 "AB" ["A", "B"]]).predictions 1).options.length :=
  ⟨⟨[.create 1 0 "AB" ["A", "B"]], rfl⟩, by decide,
    optionTotals_length_spec.1 _ ⟨[.create 1 0 "AB" ["A", "B"]], rfl⟩ 1 (by decide)⟩

theorem balance_step_create (s : MarketState) (sender ts : Nat) (name : String)
    (options : List String) :
    (step s (.create sender ts name options)).balance = s.balance := by
  simp only [step]
  cases hc : createPrediction s sender ts name options with
  | ok result =>
      obtain ⟨pid, s'⟩ := result
      obtain ⟨-, -, -, -, -, hstate⟩ := createPrediction_ok_inv hc
      rw [hstate]
  | error e => rfl

theorem balance_step_bet (s : MarketState) (sender value predictionId selRaw : Nat) :
    (step s (.bet sender value predictionId selRaw)).balance = s.balance +
      match placeEncryptedBet s sender value predictionId selRaw with
      | .ok _ => value
      | .error _ => 0 := by
  simp only [step]
  cases hc : placeEncryptedBet s sender value predictionId selRaw with
  | ok result =>
      obtain ⟨s', tr⟩ := result
      obtain ⟨-, -, -, -, -, -, hstate⟩ := placeEncryptedBet_ok_inv hc
      rw [hstate]
  | error e => rfl

/-- Claim C10: the engine only ever receives value.  Over any transaction
sequence the balance grows by exactly the stakes of the accepted bets —
`placeEncryptedBet` being the only value-receiving entry point, and no
operation paying anything out — so the held value is monotonically
non-decreasing and every attached stake stays locked.  (The read
accessors are pure functions of the state and cannot move value.) -/
theorem balance_locked (s : MarketState) (ops : List Op) :
    (runFrom s ops).balance = s.balance + stakedValue s ops ∧
      s.balance ≤ (runFrom s ops).balance := by
  induction ops generalizing s with
  | nil => simp [runFrom, stakedValue]
  | cons op rest ih =>
      have h1 := ih (step s op)
      have hrun : runFrom s (op :: rest) = runFrom (step s op) rest := rfl
      cases op with
      | create sender ts name options =>
          have hb := balance_step_create s sender ts name options
          have hsv : stakedValue s (.create sender ts name options :: rest) =
              0 + stakedValue (step s (.create sender ts name options)) rest := rfl
          rw [hrun, hsv, h1.1, hb]
          omega
      | bet sender value predictionId selRaw =>
          have hb := balance_step_bet s sender value predictionId selRaw
          have hsv : stakedValue s (.bet sender value predictionId selRaw :: rest) =
              (match placeEncryptedBet s sender value predictionId selRaw with
                | .ok _ => value
                | .error _ => 0)
                + stakedValue (step s (.bet sender value predictionId selRaw)) rest := rfl
          rw [hrun, hsv, h1.1, hb]
          omega

theorem getPredictionCount_runFrom (s : MarketState) (ops : List Op) :
    getPredictionCount (runFrom s ops) = getPredictionCount s + countCreates s ops := by
  induction ops generalizing s with
  | nil => simp [runFrom, countCreates]
  | cons op rest ih =>
      have h1 := ih (step s op)
      have hrun : runFrom s (op :: rest) = runFrom (step s op) rest := rfl
      cases op with
      | create sender ts name options =>
          have hcc : countCreates s (.create sender ts name options :: rest) =
              (match createPrediction s sender ts name options with
                | .ok _ => 1
                | .error _ => 0)
                + countCreates (step s (.create sender ts name options)) rest := rfl
          have hstep : getPredictionCount (step s (.create sender ts name options)) =
              getPredictionCount s +
                (match createPrediction s sender ts name options with
                  | .ok _ => 1
                  | .error _ => 0) := by
            simp only [step]
            cases hc : createPrediction s sender ts name options with
            | ok result =>
                obtain ⟨pid, s'⟩ := result
                obtain ⟨-, -, -, -, -, hstate⟩ := createPrediction_ok_inv hc
                rw [hstate]
                simp [getPredictionCount]
            | error e => simp [getPredictionCount]
          rw [hrun, hcc, h1, hstep]
          omega
      | bet sender value predictionId selRaw =>
          have hcc : countCreates s (.bet sender value predictionId selRaw :: rest) =
              0 + countCreates (step s (.bet sender value predictionId selRaw)) rest := rfl
          have hstep : getPredictionCount (step s (.bet sender value predictionId selRaw)) =
              getPredictionCount s := by
            simp only [step]
            cases hc : placeEncryptedBet s sender value predictionId selRaw with
            | ok result =>
                obtain ⟨s', tr⟩ := result
                obtain ⟨-, -, -, -, -, -, hstate⟩ := placeEncryptedBet_ok_inv hc
                rw [hstate]
                rfl
            | error e => rfl
          rw [hrun, hcc, h1, hstep]
          omega

/-- Claim C7: prediction ids are assigned sequentially starting at 1 and
never reused — after any transaction sequence with `n` successful
creations the recorded ids are exactly `1, ..., n`, `getPredictionCount()`
returns `n`, and the next successful creation returns `n + 1`. -/
theorem sequential_ids (ops : List Op) :
    getPredictionCount (runOps ops) = countCreates initialState ops ∧
      (runOps ops).predictionIds = List.range' 1 (countCreates initialState ops) ∧
      (∀ (sender ts : Nat) (name : String) (options : List String)
        (predictionId : Nat) (s' : MarketState),
        createPrediction (runOps ops) sender ts name options = .ok (predictionId, s') →
        predictionId = countCreates initialState ops + 1) := by
  have hcount : getPredictionCount (runOps ops) = countCreates initialState ops := by
    have h := getPredictionCount_runFrom initialState ops
    simpa [getPredictionCount, initialState] using h
  have hinv := invariant_reachable ⟨ops, rfl⟩
  refine ⟨hcount, ?_, ?_⟩
  · rw [← hcount]
    exact hinv.ids
  · intro sender ts name options predictionId s' h
    have hpid := (createPrediction_ok_inv h).2.2.2.2.1
    rw [hpid, hinv.nextId, ← hcount]
    rfl

theorem sequential_ids_witness :
    getPredictionCount (runOps [Op.create 1 0 "AB" ["A", "B"]]) =
        countCreates initialState [Op.create 1 0 "AB" ["A", "B"]] ∧
      (runOps [Op.create 1 0 "AB" ["A", "B"]]).predictionIds =
        List.range' 1 (countCreates initialState [Op.create 1 0 "AB" ["A", "B"]]) ∧
      (2 : Nat) = countCreates initialState [Op.create 1 0 "AB" ["A", "B"]] + 1 := by
  have h := sequential_ids [Op.create 1 0 "AB" ["A", "B"]]
  have hpid : (createPrediction (runOps [Op.create 1 0 "AB" ["A", "B"]])
      1 0 "CD" ["C", "D"]).map Prod.fst = .ok 2 := by rfl
  refine ⟨h.1, h.2.1, ?_⟩
  cases hok : createPrediction (runOps [Op.create 1 0 "AB" ["A", "B"]]) 1 0 "CD" ["C", "D"] with
  | error e =>
      rw [hok] at hpid
      simp [Except.map] at hpid
  | ok result =>
      obtain ⟨pid, s'⟩ := result
      have h2 : pid = 2 := by
        rw [hok] at hpid
        simpa [Except.map] using hpid
      rw [← h2]
      exact h.2.2 1 0 "CD" ["C", "D"] pid s' hok

theorem sum_range_getD (l : List Nat) :
    ∑ i ∈ Finset.range l.length, l.getD i 0 = l.sum := by
  induction l with
  | nil => rfl
  | cons a rest ih =>
      rw [List.length_cons, Finset.sum_range_succ']
      simp only [List.getD_cons_succ, List.getD_cons_zero, List.sum_cons]
      rw [ih, Nat.add_comm]

theorem stakesOn_partition (bets : List ((Nat × Nat) × BetInfo)) (predictionId n : Nat)
    (h : ∀ e ∈ bets, e.1.1 = predictionId → e.2.encryptedSelection < n) :
    ∑ i ∈ Finset.range n, stakesOnSel bets predictionId i = stakesOn bets predictionId := by
  induction bets with
  | nil => simp [stakesOnSel, stakesOn]
  | cons e l ih =>
      rw [stakesOn_cons]
      have hcons : ∀ i ∈ Finset.range n, stakesOnSel (e :: l) predictionId i =
          (if e.1.1 = predictionId ∧ e.2.encryptedSelection = i then e.2.encryptedAmount
            else 0) + stakesOnSel l predictionId i :=
        fun i _ => stakesOnSel_cons e l predictionId i
      rw [Finset.sum_congr rfl hcons, Finset.sum_add_distrib,
        ih fun x hx => h x (List.mem_cons_of_mem e hx)]
      by_cases hp : e.1.1 = predictionId
      · have hsel : e.2.encryptedSelection ∈ Finset.range n :=
          Finset.mem_range.mpr (h e (List.mem_cons_self e l) hp)
        have hone : ∑ i ∈ Finset.range n,
            (if e.1.1 = predictionId ∧ e.2.encryptedSelection = i
              then e.2.encryptedAmount else 0) =
            e.2.encryptedAmount := by
          simp only [hp, true_and]
          rw [Finset.sum_ite_eq (Finset.range n) e.2.encryptedSelection
            (fun _ => e.2.encryptedAmount), if_pos hsel]
        rw [hone, if_pos hp]
      · have hzero : ∑ i ∈ Finset.range n,
            (if e.1.1 = predictionId ∧ e.2.encryptedSelection = i
              then e.2.encryptedAmount else 0) = 0 := by
          simp [hp]
        rw [hzero, if_neg hp]

theorem asEuint8_mem_betLoopTraceFrom (sender : Nat) :
    ∀ (n k i : Nat), i < n →
      FHEOp.asEuint8 ((k + i) % UINT8_MOD) ∈ betLoopTraceFrom sender k n := by
  intro n
  induction n with
  | zero => intro k i h; exact absurd h (Nat.not_lt_zero i)
  | succ m ih =>
      intro k i h
      cases i with
      | zero => simp [betLoopTraceFrom]
      | succ j =>
          have hmem := ih (k + 1) j (by omega)
          have hk : k + 1 + j = k + (j + 1) := by omega
          rw [hk] at hmem
          exact List.mem_append_right _ hmem

/-- Claim C8: `listPredictions` is a pure read (it takes the state and
returns summaries, mutating nothing) that yields one summary per created
prediction, in creation order, whose fields are the stored creation-time
values — `step` never changes an existing prediction's metadata, so the
stored values are the creation-time ones.  The `continue` skip for
never-created ids is dead in reachable states, where every recorded id
exists. -/
theorem listPredictions_spec {s : MarketState} (hr : Reachable s) :
    listPredictions s = s.predictionIds.map (fun predictionId =>
      { id := predictionId
        name := (s.predictions predictionId).name
        options := (s.predictions predictionId).options
        creator := (s.predictions predictionId).creator
        createdAt := (s.predictions predictionId).createdAt }) ∧
      (listPredictions s).length = getPredictionCount s ∧
      (∀ predictionId ∈ s.predictionIds, (s.predictions predictionId).exists_ = true) ∧
      (∀ (op : Op) (predictionId : Nat), (s.predictions predictionId).exists_ = true →
        ((step s op).predictions predictionId).name =
            (s.predictions predictionId).name ∧
          ((step s op).predictions predictionId).options =
            (s.predictions predictionId).options ∧
          ((step s op).predictions predictionId).creator =
            (s.predictions predictionId).creator ∧
          ((step s op).predictions predictionId).createdAt =
            (s.predictions predictionId).createdAt) := by
  have hinv := invariant_reachable hr
  refine ⟨?_, by simp [listPredictions, getPredictionCount], hinv.idsExist, ?_⟩
  · unfold listPredictions
    apply List.map_congr_left
    intro predictionId hmem
    have hex := hinv.idsExist predictionId hmem
    simp [hex]
  · intro op predictionId hex
    cases op with
    | create sender ts name options =>
        simp only [step]
        cases hc : createPrediction s sender ts name options with
        | ok result =>
            obtain ⟨pid, s'⟩ := result
            obtain ⟨-, -, -, -, -, hstate⟩ := createPrediction_ok_inv hc
            have hne : predictionId ≠ s.nextPredictionId := by
              intro heq
              have hf := hinv.fresh s.nextPredictionId (Nat.le_refl _)
              rw [← heq, hex] at hf
              exact absurd hf (by simp)
            rw [hstate]
            dsimp only
            rw [if_neg hne]
            exact ⟨rfl, rfl, rfl, rfl⟩
        | error e => exact ⟨rfl, rfl, rfl, rfl⟩
    | bet sender value predictionId' selRaw =>
        simp only [step]
        cases hc : placeEncryptedBet s sender value predictionId' selRaw with
        | ok result =>
            obtain ⟨s', tr⟩ := result
            obtain ⟨-, -, -, -, -, -, hstate⟩ := placeEncryptedBet_ok_inv hc
            rw [hstate]
            dsimp only
            by_cases hqp : predictionId = predictionId'
            · rw [if_pos hqp, hqp]
              exact ⟨rfl, rfl, rfl, rfl⟩
            · rw [if_neg hqp]
              exact ⟨rfl, rfl, rfl, rfl⟩
        | error e => exact ⟨rfl, rfl, rfl, rfl⟩

theorem listPredictions_spec_witness :
    Reachable (runOps [.create 1 7 "AB" ["A", "B"]]) ∧
      listPredictions (runOps [.create 1 7 "AB" ["A", "B"]]) =
        [{ id := 1, name := "AB", options := ["A", "B"], creator := 1, createdAt := 7 }] ∧
      (listPredictions (runOps [.create 1 7 "AB" ["A", "B"]])).length =
        getPredictionCount (runOps [.create 1 7 "AB" ["A", "B"]]) := by
  have h := listPredictions_spec (s := runOps [.create 1 7 "AB" ["A", "B"]])
    ⟨[.create 1 7 "AB" ["A", "B"]], rfl⟩
  refine ⟨⟨[.create 1 7 "AB" ["A", "B"]], rfl⟩, ?_, h.2.1⟩
  rw [h.1]
  decide

/-- Claim C2: obliviousness of the aggregation — two `placeEncryptedBet`
calls on the same reachable state that differ only in the encrypted
selection perform exactly the same ordered sequence of FHE primitive
operations (same number, kinds and order of equality tests, selects,
adds and grants), and that common trace contains the per-index block
(an `asEuint8` encoding of the index, an equality test, a select, an
add and the three grants) for every option index `0 .. options.length - 1`. -/
theorem placeEncryptedBet_oblivious {s : MarketState} (hr : Reachable s)
    {sender value predictionId sel1 sel2 : Nat} {s1 s2 : MarketState}
    {tr1 tr2 : List FHEOp}
    (h1 : placeEncryptedBet s sender value predictionId sel1 = .ok (s1, tr1))
    (h2 : placeEncryptedBet s sender value predictionId sel2 = .ok (s2, tr2)) :
    tr1 = tr2 ∧
      tr1 = betPrelude sender value
        ++ betLoopTraceFrom sender 0 (s.predictions predictionId).options.length ∧
      ∀ i, i < (s.predictions predictionId).options.length →
        FHEOp.asEuint8 i ∈ tr1 := by
  obtain ⟨hex, -, -, -, -, htr1, -⟩ := placeEncryptedBet_ok_inv h1
  obtain ⟨-, -, -, -, -, htr2, -⟩ := placeEncryptedBet_ok_inv h2
  have hinv := invariant_reachable hr
  have hlen := (hinv.optionsLen predictionId hex).1
  have h4 := (hinv.optionsLen predictionId hex).2.2
  have hshape : tr1 = betPrelude sender value
      ++ betLoopTraceFrom sender 0 (s.predictions predictionId).options.length := by
    rw [htr1, hlen]
  refine ⟨by rw [htr1, htr2], hshape, ?_⟩
  intro i hi
  have hmem := asEuint8_mem_betLoopTraceFrom sender
    (s.predictions predictionId).options.length 0 i hi
  have hmod : (0 + i) % UINT8_MOD = i := by
    rw [Nat.zero_add]
    apply Nat.mod_eq_of_lt
    have : UINT8_MOD = 256 := by norm_num [UINT8_MOD]
    omega
  rw [hmod] at hmem
  rw [hshape]
  exact List.mem_append_right _ hmem

theorem placeEncryptedBet_oblivious_witness :
    Reachable (runOps [Op.create 1 0 "AB" ["A", "B"]]) ∧
      (placeEncryptedBet (runOps [Op.create 1 0 "AB" ["A", "B"]]) 2 5 1 0).map Prod.snd =
        (placeEncryptedBet (runOps [Op.create 1 0 "AB" ["A", "B"]]) 2 5 1 7).map Prod.snd ∧
      (placeEncryptedBet (runOps [Op.create 1 0 "AB" ["A", "B"]]) 2 5 1 0).map Prod.snd =
        .ok (betPrelude 2 5 ++ betLoopTraceFrom 2 0
          ((runOps [Op.create 1 0 "AB" ["A", "B"]]).predictions 1).options.length) := by
  have e1 : ∃ p, placeEncryptedBet (runOps [Op.create 1 0 "AB" ["A", "B"]]) 2 5 1 0 =
      .ok p := by
    cases hc : placeEncryptedBet (runOps [Op.create 1 0 "AB" ["A", "B"]]) 2 5 1 0 with
    | ok p => exact ⟨p, rfl⟩
    | error e =>
        have : (placeEncryptedBet (runOps [Op.create 1 0 "AB" ["A", "B"]]) 2 5 1 0).map
            Prod.snd = .ok (betPrelude 2 5 ++ betLoopTraceFrom 2 0 2) := by rfl
        rw [hc] at this
        simp [Except.map] at this
  have e2 : ∃ p, placeEncryptedBet (runOps [Op.create 1 0 "AB" ["A", "B"]]) 2 5 1 7 =
      .ok p := by
    cases hc : placeEncryptedBet (runOps [Op.create 1 0 "AB" ["A", "B"]]) 2 5 1 7 with
    | ok p => exact ⟨p, rfl⟩
    | error e =>
        have : (placeEncryptedBet (runOps [Op.create 1 0 "AB" ["A", "B"]]) 2 5 1 7).map
            Prod.snd = .ok (betPrelude 2 5 ++ betLoopTraceFrom 2 0 2) := by rfl
        rw [hc] at this
        simp [Except.map] at this
  obtain ⟨⟨sA, trA⟩, hA⟩ := e1
  obtain ⟨⟨sB, trB⟩, hB⟩ := e2
  have h := placeEncryptedBet_oblivious (s := runOps [Op.create 1 0 "AB" ["A", "B"]])
    ⟨[Op.create 1 0 "AB" ["A", "B"]], rfl⟩ hA hB
  refine ⟨⟨[Op.create 1 0 "AB" ["A", "B"]], rfl⟩, ?_, ?_⟩
  · rw [hA, hB]
    simp only [Except.map]
    rw [h.1]
  · rw [hA]
    simp only [Except.map]
    rw [h.2.1]

/-- Claim C3 as frozen is false at a concrete input: in a reachable state
where identity 2 has already bet on prediction 1, a further
`placeEncryptedBet` call by identity 2 on prediction 1 with zero attached
stake fails with `InvalidBetAmount`, not `BetAlreadyPlaced` — the amount
check precedes the duplicate-bet check. -/
theorem second_bet_zero_value_cex :
    Reachable (runOps [Op.create 1 0 "AB" ["A", "B"], Op.bet 2 1 1 0]) ∧
      (lookupBet (runOps [Op.create 1 0 "AB" ["A", "B"], Op.bet 2 1 1 0]).bets 1 2).exists_
        = true ∧
      placeEncryptedBet (runOps [Op.create 1 0 "AB" ["A", "B"], Op.bet 2 1 1 0]) 2 0 1 0
        = .error .InvalidBetAmount ∧
      MarketError.InvalidBetAmount ≠ MarketError.BetAlreadyPlaced :=
  ⟨⟨[Op.create 1 0 "AB" ["A", "B"], Op.bet 2 1 1 0], rfl⟩, by decide, by rfl, by decide⟩

/-- Claim C3 (amended): in a reachable state, once an identity has
successfully bet on a prediction, any further `placeEncryptedBet` call by
that identity on that prediction whose attached stake passes the amount
validation fails with `BetAlreadyPlaced` and leaves the entire state
unchanged. -/
theorem second_bet_rejected {s : MarketState} (hr : Reachable s)
    (sender value predictionId selRaw : Nat)
    (hbet : (lookupBet s.bets predictionId sender).exists_ = true)
    (hv0 : value ≠ 0) (hvmax : value ≤ UINT64_MAX) :
    placeEncryptedBet s sender value predictionId selRaw = .error .BetAlreadyPlaced ∧
      step s (.bet sender value predictionId selRaw) = s := by
  have hinv := invariant_reachable hr
  have hex : (s.predictions predictionId).exists_ = true := by
    rcases lookupBet_default_or_mem s.bets predictionId sender with hd | ⟨e, he, hp, -, -⟩
    · rw [hd] at hbet
      exact absurd hbet (by simp [BetInfo.default])
    · have := (hinv.betsWF e he).1
      rw [hp] at this
      exact this
  have hlen := (hinv.optionsLen predictionId hex).1
  have h2 := (hinv.optionsLen predictionId hex).2.1
  have hlen0 : ¬(s.predictions predictionId).optionTotals.length = 0 := by omega
  have hval : ¬(value = 0 ∨ value > UINT64_MAX) := by
    push_neg
    exact ⟨hv0, hvmax⟩
  have herr : placeEncryptedBet s sender value predictionId selRaw =
      .error .BetAlreadyPlaced := by
    unfold placeEncryptedBet
    dsimp only
    rw [if_neg (by simp [hex]), if_neg hlen0, if_neg hval, if_pos hbet]
  exact ⟨herr, by simp [step, herr]⟩

theorem second_bet_rejected_witness :
    Reachable (runOps [Op.create 1 0 "AB" ["A", "B"], Op.bet 2 1 1 0]) ∧
      (lookupBet (runOps [Op.create 1 0 "AB" ["A", "B"], Op.bet 2 1 1 0]).bets 1 2).exists_
        = true ∧
      (3 : Nat) ≠ 0 ∧ (3 : Nat) ≤ UINT64_MAX ∧
      placeEncryptedBet (runOps [Op.create 1 0 "AB" ["A", "B"], Op.bet 2 1 1 0]) 2 3 1 1
        = .error .BetAlreadyPlaced ∧
      step (runOps [Op.create 1 0 "AB" ["A", "B"], Op.bet 2 1 1 0]) (.bet 2 3 1 1)
        = runOps [Op.create 1 0 "AB" ["A", "B"], Op.bet 2 1 1 0] := by
  have h := second_bet_rejected
    (s := runOps [Op.create 1 0 "AB" ["A", "B"], Op.bet 2 1 1 0])
    ⟨[Op.create 1 0 "AB" ["A", "B"], Op.bet 2 1 1 0], rfl⟩ 2 3 1 1
    (by decide) (by decide) (by decide)
  exact ⟨⟨[Op.create 1 0 "AB" ["A", "B"], Op.bet 2 1 1 0], rfl⟩, by decide,
    by decide, by decide, h.1, h.2⟩

/-- Claim C1 as frozen is false at a concrete input: the encrypted
selection cannot be range-checked, so a successfully placed bet whose
selection decrypts out of range (here 2 on a two-option prediction)
enters the pool but no option total — in the reachable state below the
pool decrypts to 1 while the option totals decrypt to 0 and 0. -/
theorem pool_accounting_cex :
    Reachable (runOps [Op.create 1 0 "AB" ["A", "B"], Op.bet 2 1 1 2]) ∧
      ((runOps [Op.create 1 0 "AB" ["A", "B"], Op.bet 2 1 1 2]).predictions 1).exists_
        = true ∧
      ((runOps [Op.create 1 0 "AB" ["A", "B"], Op.bet 2 1 1 2]).predictions 1).encryptedPool
        = 1 ∧
      ((runOps [Op.create 1 0 "AB" ["A", "B"], Op.bet 2 1 1 2]).predictions 1).optionTotals
        = [0, 0] ∧
      ((runOps [Op.create 1 0 "AB" ["A", "B"],
          Op.bet 2 1 1 2]).predictions 1).encryptedPool ≠
        ((runOps [Op.create 1 0 "AB" ["A", "B"],
          Op.bet 2 1 1 2]).predictions 1).optionTotals.sum :=
  ⟨⟨[Op.create 1 0 "AB" ["A", "B"], Op.bet 2 1 1 2], rfl⟩,
    by decide, by decide, by decide, by decide⟩

/-- Claim C1 (amended): in every reachable state and for every existing
prediction, each `optionTotals[i]` decrypts to the sum, modulo `2 ^ 64`
(the `euint64` additions wrap), of the stakes attached to the
successfully placed bets on it whose stored encrypted selection decrypts
to `i`; and provided every bet placed on the prediction selected an
in-range option index, the pool decrypts to the sum of the decrypted
option totals, modulo `2 ^ 64`. -/
theorem pool_accounting {s : MarketState} (hr : Reachable s) (predictionId : Nat)
    (hex : (s.predictions predictionId).exists_ = true) :
    (∀ i, i < (s.predictions predictionId).optionTotals.length →
      (s.predictions predictionId).optionTotals.getD i 0 =
        stakesOnSel s.bets predictionId i % UINT64_MOD) ∧
      ((∀ e ∈ s.bets, e.1.1 = predictionId →
          e.2.encryptedSelection < (s.predictions predictionId).options.length) →
        (s.predictions predictionId).encryptedPool =
          (s.predictions predictionId).optionTotals.sum % UINT64_MOD) := by
  have hinv := invariant_reachable hr
  refine ⟨hinv.totalsSum predictionId hex, ?_⟩
  intro hrange
  have hlen := (hinv.optionsLen predictionId hex).1
  have h1 : (s.predictions predictionId).optionTotals.sum =
      ∑ i ∈ Finset.range (s.predictions predictionId).optionTotals.length,
        (s.predictions predictionId).optionTotals.getD i 0 :=
    (sum_range_getD _).symm
  have h2 : ∀ i ∈ Finset.range (s.predictions predictionId).optionTotals.length,
      (s.predictions predictionId).optionTotals.getD i 0 =
        stakesOnSel s.bets predictionId i % UINT64_MOD :=
    fun i hi => hinv.totalsSum predictionId hex i (Finset.mem_range.mp hi)
  have h3 : ∑ i ∈ Finset.range (s.predictions predictionId).optionTotals.length,
      stakesOnSel s.bets predictionId i = stakesOn s.bets predictionId := by
    apply stakesOn_partition
    intro e he hpe
    rw [hlen]
    exact hrange e he hpe
  rw [hinv.poolSum predictionId hex, h1, Finset.sum_congr rfl h2,
    ← Finset.sum_nat_mod, h3]

theorem pool_accounting_witness :
    Reachable (runOps [Op.create 1 0 "AB" ["A", "B"], Op.bet 2 1 1 0]) ∧
      ((runOps [Op.create 1 0 "AB" ["A", "B"], Op.bet 2 1 1 0]).predictions 1).exists_
        = true ∧
      (∀ e ∈ (runOps [Op.create 1 0 "AB" ["A", "B"], Op.bet 2 1 1 0]).bets,
        e.1.1 = 1 →
        e.2.encryptedSelection <
          ((runOps [Op.create 1 0 "AB" ["A", "B"],
            Op.bet 2 1 1 0]).predictions 1).options.length) ∧
      ((runOps [Op.create 1 0 "AB" ["A", "B"], Op.bet 2 1 1 0]).predictions 1).optionTotals.getD
          0 0 =
        stakesOnSel (runOps [Op.create 1 0 "AB" ["A", "B"], Op.bet 2 1 1 0]).bets 1 0
          % UINT64_MOD ∧
      ((runOps [Op.create 1 0 "AB" ["A", "B"], Op.bet 2 1 1 0]).predictions 1).encryptedPool
        = ((runOps [Op.create 1 0 "AB" ["A", "B"],
            Op.bet 2 1 1 0]).predictions 1).optionTotals.sum % UINT64_MOD := by
  have h := pool_accounting
    (s := runOps [Op.create 1 0 "AB" ["A", "B"], Op.bet 2 1 1 0])
    ⟨[Op.create 1 0 "AB" ["A", "B"], Op.bet 2 1 1 0], rfl⟩ 1 (by decide)
  refine ⟨⟨[Op.create 1 0 "AB" ["A", "B"], Op.bet 2 1 1 0], rfl⟩, by decide,
    by decide, ?_, ?_⟩
  · exact h.1 0 (by decide)
  · exact h.2 (by decide)

end FHEPredictionMarket
